import Mathlib

/-!
Verification of the levtrie package: a string trie supporting exact point
operations (Get/Set/Delete) and approximate search bounded by Levenshtein
edit distance, implemented by simulating a Levenshtein NFA in parallel with
the trie traversal.

The embedding below translates the Go source.  Keys and queries are modelled
as lists of Unicode scalar values (the Go code decodes strings to runes at
every boundary, so all algorithms operate on scalar sequences).  Go's `int8`
arithmetic is modelled on `Int` with an explicit wrap `wrap8` applied exactly
where the Go code performs an 8-bit operation, because overflow is observable
in this code.  Run-time errors of the Go code (out-of-range indexing) are
modelled by `Option`: `none` in an inner position means the Go code would
crash.  The traversal loops are given explicit fuel; exhausted fuel is the
outermost `none` and is distinguished from a crash, which is `some none`.
-/

set_option maxRecDepth 3000

namespace Levtrie

/-- Two's-complement wrap of an integer into the signed 8-bit range
[-128, 127], modelling Go `int8` arithmetic. -/
def wrap8 (x : Int) : Int := (x + 128) % 256 - 128

/-- KV is a key-value pair, the basic storage unit of the Trie (keys are
held as scalar sequences, the decoded form of the Go string). -/
structure KV where
  key : List Nat
  value : String
deriving DecidableEq, Repr

/-- node is a Trie node: a mapping from scalar to child node together with
an optional stored entry.  The Go `map[rune]*node` is modelled as an
association list with distinct keys. -/
inductive Node where
  | mk : List (Nat × Node) → Option KV → Node

/-- The child map of a node. -/
def Node.child : Node → List (Nat × Node)
  | Node.mk cs _ => cs

/-- The optional entry stored at a node. -/
def Node.data : Node → Option KV
  | Node.mk _ d => d

/-- Lookup of a scalar in a child map, modelling Go `n.child[r]`. -/
def childLookup : List (Nat × Node) → Nat → Option Node
  | [], _ => none
  | (a, n) :: rest, r => if a = r then some n else childLookup rest r

/-- Update or insert of a child binding, modelling Go `n.child[r] = z`. -/
def childInsert : List (Nat × Node) → Nat → Node → List (Nat × Node)
  | [], r, n => [(r, n)]
  | (a, m) :: rest, r, n =>
    if a = r then (r, n) :: rest else (a, m) :: childInsert rest r n

/-- Removal of a child binding, modelling Go `delete(n.child, r)`. -/
def childRemove : List (Nat × Node) → Nat → List (Nat × Node)
  | [], _ => []
  | (a, m) :: rest, r => if a = r then rest else (a, m) :: childRemove rest r

/-- New returns a new Trie: a root node with an empty child map and no
entry.  A trie is identified with its root node in this embedding. -/
def New : Node := Node.mk [] none

/-- Get returns the value stored in the Trie at the given key, `none` when
the key is absent, modelling Go `Trie.Get` (which returns ("", false) in
that case). -/
def Get : Node → List Nat → Option String
  | Node.mk _ d, [] =>
    match d with
    | some kv => some kv.value
    | none => none
  | Node.mk cs _, r :: ks =>
    match childLookup cs r with
    | none => none
    | some c => Get c ks

/-- Descent along a scalar path, the loop shared by Get/Delete and the
exact-prefix search operations.  Returns the node at the end of the path,
or `none` when some edge is missing. -/
def descend : Node → List Nat → Option Node
  | n, [] => some n
  | Node.mk cs _, r :: ks =>
    match childLookup cs r with
    | none => none
    | some c => descend c ks

/-- Recursive worker for Set: descend along `ks`, creating missing nodes,
and install the entry `(key, v)` at the end, exactly as Go `Trie.Set`
stores the full original key in the KV. -/
def setNode : Node → List Nat → List Nat → String → Node
  | Node.mk cs _, [], key, v => Node.mk cs (some ⟨key, v⟩)
  | Node.mk cs d, r :: ks, key, v =>
    let c := match childLookup cs r with
      | none => Node.mk [] none
      | some c => c
    Node.mk (childInsert cs r (setNode c ks key v)) d

/-- Set associates key with val in the Trie, modelling Go `Trie.Set`. -/
def Set (t : Node) (key : List Nat) (v : String) : Node := setNode t key key v

/-- The cut index computed by Go `Trie.Delete`'s descent: the index along
the key of the deepest node that has more than one child (the root, index
0, is always a candidate because `cnode` starts out nil).  The rune used to
leave that node is the key scalar at the same index. -/
def cutIndexAux : Node → List Nat → Nat → Nat → Nat
  | _, [], _, best => best
  | Node.mk cs _, r :: ks, i, best =>
    let best1 := if 1 < cs.length ∨ i = 0 then i else best
    match childLookup cs r with
    | none => best1
    | some c => cutIndexAux c ks (i + 1) best1

/-- Clear the entry of the node at the end of the path, modelling the
assignment `n.data = nil` at the end of Go `Trie.Delete`. -/
def clearDataAt : Node → List Nat → Node
  | Node.mk cs _, [] => Node.mk cs none
  | Node.mk cs d, r :: ks =>
    match childLookup cs r with
    | none => Node.mk cs d
    | some c => Node.mk (childInsert cs r (clearDataAt c ks)) d

/-- Remove, from the node reached after `i` steps along the path, the child
edge labelled with the path scalar at index `i`; this models Go's
`delete(cnode.child, crune)`, which detaches the whole dangling subtree. -/
def removeEdgeAt : Node → List Nat → Nat → Node
  | n, [], _ => n
  | Node.mk cs d, r :: _, 0 => Node.mk (childRemove cs r) d
  | Node.mk cs d, r :: ks, i + 1 =>
    match childLookup cs r with
    | none => Node.mk cs d
    | some c => Node.mk (childInsert cs r (removeEdgeAt c ks i)) d

/-- Delete removes the key from the Trie, modelling Go `Trie.Delete`: a
silent no-op when the path is missing; otherwise the target's entry is
cleared and, when the target has no children, the edge recorded at the cut
point is removed, discarding the dangling path.  For the empty key with a
childless root the Go code dereferences the nil `cnode` and crashes, which
is modelled by `none`. -/
def Delete (t : Node) (key : List Nat) : Option Node :=
  match descend t key with
  | none => some t
  | some target =>
    if target.child.length = 0 then
      match key with
      | [] => none
      | _ :: _ => some (removeEdgeAt t key (cutIndexAux t key 0 0))
    else
      some (clearDataAt t key)

/-- state is a state in the simulation of a Levenshtein NFA: the window
offset plus, for each of the 2d+1 diagonals in the window, the smallest
error count reached on that diagonal (d+1 meaning inactive).  Cell values
are Go `int8`, modelled as wrapped `Int`. -/
structure NState where
  offset : Int
  arr : List Int
deriving DecidableEq, Repr

/-- newState builds a fresh state with every cell set to `int8(d+1)`,
modelling Go `newState`. -/
def newState (d : Int) (offset : Int) : NState :=
  ⟨offset, List.replicate (2 * d + 1).toNat (wrap8 (d + 1))⟩

/-- nfa is a Levenshtein NFA: the query's scalar sequence and the distance
bound (a Go `int8`).  The Go struct also carries the `jump` scratch array;
in this pure embedding the jump table is rebuilt by each transition, which
is equivalent because Go overwrites every entry at the start of each
transition. -/
structure Nfa where
  rs : List Nat
  d : Int
deriving DecidableEq, Repr

/-- newNfa builds an NFA for a scalar sequence and a distance bound. -/
def newNfa (rs : List Nat) (d : Int) : Nfa := ⟨rs, d⟩

/-- start returns the start state of the NFA: offset -2d, all cells
inactive except the rightmost one, which holds 0. -/
def nfaStart (nf : Nfa) : NState :=
  let s := newState nf.d (-2 * nf.d)
  ⟨s.offset, s.arr.set (2 * nf.d).toNat 0⟩

/-- acceptsAux scans the cells of a state with their indexes, modelling the
loop of Go `nfa.accepts`: `dist := int8(len(rs) - offset - i)` is an exact
integer computation followed by a single 8-bit truncation. -/
def acceptsAux (qlen : Int) (d : Int) (offset : Int) : List Int → Nat → Bool
  | [], _ => false
  | x :: rest, i =>
    let dist := wrap8 (qlen - offset - i)
    (decide (dist ≤ d) && decide (dist ≥ x)) || acceptsAux qlen d offset rest (i + 1)

/-- accepts returns true exactly when the NFA state passed is accepting. -/
def accepts (nf : Nfa) (s : NState) : Bool :=
  acceptsAux nf.rs.length nf.d s.offset s.arr 0

/-- matchAt models the guard `x < len(rs) && x >= 0 && rs[x] == r` of the
jump-table loop in Go `nfa.transition`. -/
def matchAt (rs : List Nat) (r : Nat) (x : Int) : Bool :=
  decide (x < (rs.length : Int)) && decide (0 ≤ x) && decide (rs.getD x.toNat 0 = r)

/-- buildJump runs the jump-table loop of Go `nfa.transition` from index
`k - 1` down to 0 carrying the `next` counter (`int8`; it is reset to 0 at
positions where the query holds `r` and incremented, with wrap, at each
step).  The produced entries are accumulated so that the result lists
`jump[0], jump[1], ...` in order. -/
def buildJump (rs : List Nat) (r : Nat) (offset : Int) : Nat → Int → List Int → List Int
  | 0, _, acc => acc
  | k + 1, next, acc =>
    let nx := if matchAt rs r (offset + k) then 0 else next
    buildJump rs r offset k (wrap8 (nx + 1)) (nx :: acc)

/-- mkJump builds the full jump table of length 3d+2 used by one transition,
starting the counter at `int8(d+1)`. -/
def mkJump (nf : Nfa) (offset : Int) (r : Nat) : List Int :=
  buildJump nf.rs r offset (3 * nf.d + 2).toNat (wrap8 (nf.d + 1)) []

/-- codeCell is the value computed by the body of the per-diagonal loop of
Go `nfa.transition` for diagonal `j`: the minimum (as a chain of guarded
comparisons, exactly as in the source) of the horizontal contribution
`arr[j] + jump[j+arr[j]]`, the diagonal contribution `arr[j+1] + 1` (when
`j < len(arr)-1`) and the vertical contribution `arr[j+2] + 1` (when
`j < len(arr)-2`), starting from `d+1`; every 8-bit addition wraps. -/
def codeCell (sarr jump : List Int) (d1 : Int) (j : Nat) : Int :=
  let aj := sarr.getD j 0
  let jv := jump.getD ((j : Int) + aj).toNat 0
  let cr := wrap8 (aj + jv)
  let val1 := if cr < d1 then cr else d1
  let val2 :=
    if j + 1 < sarr.length then
      let dg := wrap8 (sarr.getD (j + 1) 0 + 1)
      if dg < val1 then dg else val1
    else val1
  let val3 :=
    if j + 2 < sarr.length then
      let vt := wrap8 (sarr.getD (j + 2) 0 + 1)
      if vt < val2 then vt else val2
    else val2
  val3

/-- transCells runs the per-diagonal loop of Go `nfa.transition` for `k`
remaining diagonals starting at index `j`, threading the running minimum
`mn` (initialized to `int8(d+1)`).  The reads `s.arr[j]` and
`jump[j+arr[j]]` are bounds-checked (an out-of-range index is a Go crash,
hence `none`); the value of the iteration body is `codeCell`, the cell
written is that value clamped to the inactive sentinel `d1`, and the
running minimum is updated with the unclamped value, as in the source. -/
def transCells (sarr jump : List Int) (d1 : Int) : Nat → Nat → Int → Option (List Int × Int)
  | 0, _, mn => some ([], mn)
  | k + 1, j, mn =>
    match sarr.get? j with
    | none => none
    | some aj =>
      if 0 ≤ (j : Int) + aj then
        match jump.get? ((j : Int) + aj).toNat with
        | none => none
        | some _ =>
          let val3 := codeCell sarr jump d1 j
          let cell := if val3 < d1 then val3 else d1
          let mn1 := if val3 < mn then val3 else mn
          match transCells sarr jump d1 k (j + 1) mn1 with
          | none => none
          | some (cells, mnf) => some (cell :: cells, mnf)
      else none

/-- transition computes the effect of a scalar transition on a set of NFA
states, returning the successor state and the minimum edit distance among
those states, modelling Go `nfa.transition`; `none` models a crash from an
out-of-range index. -/
def transition (nf : Nfa) (s : NState) (r : Nat) : Option (NState × Int) :=
  let d1 := wrap8 (nf.d + 1)
  let jump := mkJump nf s.offset r
  match transCells s.arr jump d1 (2 * nf.d + 1).toNat 0 d1 with
  | none => none
  | some (cells, mn) => some (⟨s.offset + 1, cells⟩, mn)

/-- frame is the complete state needed during a traversal of the Trie: a
node from the Trie plus a set of states in the NFA. -/
structure Frame where
  n : Node
  s : NState

/-- doNotExpandSuffixes is the strategy that emits only the current node's
entry and never halts the traversal, modelling the Go function of the same
name (which ignores its limit argument). -/
def doNotExpandSuffixes (n : Node) (_limit : Int) : List KV × Bool :=
  ((match n.data with
    | some kv => [kv]
    | none => []), false)

/-- pushStack places every child of a node on top of the auxiliary stack of
`expandSuffixes`; Go appends the children in order and pops from the end,
which the cons-based stack mirrors by pushing them in order to the front. -/
def pushStack (cs : List (Nat × Node)) (stack : List Node) : List Node :=
  cs.foldl (fun st p => p.2 :: st) stack

/-- expandLoop is the stack loop of Go `expandSuffixes`: pop a node, emit
its entry if present, stop as soon as `limit` entries have been collected,
otherwise push its children; `none` means the fuel ran out. -/
def expandLoop (limit : Int) : Nat → List Node → List KV → Option (List KV × Bool)
  | 0, _, _ => none
  | _ + 1, [], results => some (results, true)
  | fuel + 1, x :: rest, results =>
    match x.data with
    | some kv =>
      let results1 := results ++ [kv]
      if (results1.length : Int) ≥ limit then some (results1, true)
      else expandLoop limit fuel (pushStack x.child rest) results1
    | none => expandLoop limit fuel (pushStack x.child rest) results

/-- expandSuffixes is the strategy that enumerates the whole subtree below
an accepted node and halts the outer traversal there, modelling the Go
function of the same name. -/
def expandSuffixes (fuel : Nat) (n : Node) (limit : Int) : Option (List KV × Bool) :=
  expandLoop limit fuel [n] []

/-- pushChildrenFrames registers each child of the popped frame's node for
traversal: the NFA transition is computed on the child's edge scalar and,
when the reported minimum is below `int8(d+1)`, the new frame is pushed on
the stack indexed by that minimum.  A negative minimum (possible through
8-bit overflow) makes Go index the stack array out of range and crash,
which is modelled by `none`. -/
def pushChildrenFrames (nf : Nfa) (s : NState) (d1 : Int) : List (Nat × Node) → List (List Frame) → Option (List (List Frame))
  | [], stks => some stks
  | (r, c) :: rest, stks =>
    match transition nf s r with
    | none => none
    | some (ns, mn) =>
      if mn < d1 then
        if h : 0 ≤ mn ∧ mn.toNat < stks.length then
          pushChildrenFrames nf s d1 rest
            (stks.set mn.toNat (⟨c, ns⟩ :: stks.get ⟨mn.toNat, h.2⟩))
        else none
      else pushChildrenFrames nf s d1 rest stks

/-- suggestLoop is the main loop of Go `suggest`: iterate the outer index
`i` over the stratified stacks and drain the stack at `i`, processing
accepting frames with the strategy and pushing child frames.  The stacks
are lists used LIFO from the front.  Result convention: outer `none` is
exhausted fuel, `some none` is a Go crash, `some (some l)` is a normal
return with results `l`. -/
def suggestLoop (nf : Nfa) (process : Node → Int → Option (List KV × Bool)) (limit : Int) : Nat → List (List Frame) → Nat → List KV → Option (Option (List KV))
  | 0, _, _, _ => none
  | fuel + 1, stks, i, results =>
    if hi : i < stks.length then
      match stks.get ⟨i, hi⟩ with
      | [] => suggestLoop nf process limit fuel stks (i + 1) results
      | f :: rest =>
        let stacks1 := stks.set i rest
        if accepts nf f.s then
          match process f.n (limit - (results.length : Int)) with
          | none => none
          | some (rs, halt) =>
            let results1 := results ++ rs
            if (results1.length : Int) ≥ limit then
              if limit < 0 then some none
              else some (some (results1.take limit.toNat))
            else if halt then suggestLoop nf process limit fuel stacks1 i results1
            else
              match pushChildrenFrames nf f.s (wrap8 (nf.d + 1)) f.n.child stacks1 with
              | none => some none
              | some stacks2 => suggestLoop nf process limit fuel stacks2 i results1
        else
          match pushChildrenFrames nf f.s (wrap8 (nf.d + 1)) f.n.child stacks1 with
          | none => some none
          | some stacks2 => suggestLoop nf process limit fuel stacks2 i results
    else some (some results)

/-- suggest runs the traversal of the Trie guided by the NFA built from the
query scalars and the bound `d`, modelling Go `suggest`: `d+1` stacks are
allocated and the start frame is pushed on stack 0.  Allocating zero
stacks (d negative) would make the Go assignment to stack 0 crash. -/
def suggest (fuel : Nat) (process : Node → Int → Option (List KV × Bool)) (root : Node) (runes : List Nat) (d : Int) (limit : Int) : Option (Option (List KV)) :=
  let nf := newNfa runes d
  let start := nfaStart nf
  let len := (d + 1).toNat
  if len = 0 then some none
  else
    suggestLoop nf process limit fuel
      (([⟨root, start⟩] : List Frame) :: List.replicate (len - 1) []) 0 []

/-- Suggest returns up to n KVs with keys that are within edit distance d
of the input key, modelling Go `Trie.Suggest`. -/
def Suggest (fuel : Nat) (t : Node) (key : List Nat) (d : Int) (n : Int) : Option (Option (List KV)) :=
  suggest fuel (fun nd lim => some (doNotExpandSuffixes nd lim)) t key d n

/-- SuggestSuffixes returns up to n KVs, all of whose keys have a prefix
within edit distance d of the input key, modelling Go
`Trie.SuggestSuffixes`. -/
def SuggestSuffixes (fuel : Nat) (t : Node) (key : List Nat) (d : Int) (n : Int) : Option (Option (List KV)) :=
  suggest fuel (fun nd lim => expandSuffixes fuel nd lim) t key d n

/-- sliceTo models the Go slice expression `runes[:p]` on the decoded rune
slice: `extractRunes` builds the slice with repeated `append`, which leaves
a backing array of some capacity `cp` with `len ≤ cp` (a value the runtime
chooses — the gc runtime gives a one-rune slice capacity 2 — and the model
takes as an explicit parameter; the runtime zeroes the region between the
length and the capacity).  The slice is legal whenever `0 ≤ p ≤ cp`, and
for `len < p ≤ cp` it silently reads zero-valued scalars from the grown
region; outside that range it panics (`none`). -/
def sliceTo (key : List Nat) (cp : Nat) (p : Int) : Option (List Nat) :=
  if p < 0 ∨ (cp : Int) < p then none
  else some ((key ++ List.replicate (cp - key.length) 0).take p.toNat)

/-- SuggestAfterExactPrefix returns up to n KVs that share an exact prefix
of length p with the input key and are within edit distance d of it,
modelling the Go method, with the append capacity `cp` of the decoded rune
slice made explicit.  The method slices `runes[:p]` (a panic when p is
negative or exceeds `cp`, see ` sliceTo`), descends the sliced prefix —
returning nil as soon as an edge is missing — and then runs suggest on
`runes[p:]`; since `runes[p:]` abbreviates `runes[p:len]`, that final
slice itself panics whenever p exceeds the scalar count, so a descent that
succeeds with `len < p ≤ cp` still crashes. -/
def SuggestAfterExactPrefix (fuel : Nat) (t : Node) (key : List Nat) (cp : Nat) (p : Int) (d : Int) (n : Int) : Option (Option (List KV)) :=
  match sliceTo key cp p with
  | none => some none
  | some pre =>
    match descend t pre with
    | none => some (some [])
    | some curr =>
      if (key.length : Int) < p then some none
      else suggest fuel (fun nd lim => some (doNotExpandSuffixes nd lim)) curr (key.drop p.toNat) d n

/-- SuggestSuffixesAfterExactPrefix returns up to n KVs, all of whose keys
have a prefix within edit distance d of the input key and share an exact
prefix of at least length p with it, modelling the Go method; the slicing,
the prefix descent and the treatment of out-of-range p are as in
` SuggestAfterExactPrefix`. -/
def SuggestSuffixesAfterExactPrefix (fuel : Nat) (t : Node) (key : List Nat) (cp : Nat) (p : Int) (d : Int) (n : Int) : Option (Option (List KV)) :=
  match sliceTo key cp p with
  | none => some none
  | some pre =>
    match descend t pre with
    | none => some (some [])
    | some curr =>
      if (key.length : Int) < p then some none
      else suggest fuel (fun nd lim => expandSuffixes fuel nd lim) curr (key.drop p.toNat) d n

/-- levDist is the reference Levenshtein edit distance over scalar
sequences, with insertions, deletions and substitutions only, as used by
the specification's correctness statements (the repository's own test
oracle `editDistanceHelper` implements this same recursion, except that it
truncates the result to `int8`; the reference here is exact). -/
def levDist : List Nat → List Nat → Nat
  | [], t => t.length
  | a :: s, [] => (a :: s).length
  | a :: s, b :: t =>
    if a = b then levDist s t
    else 1 + min (levDist s (b :: t)) (min (levDist (a :: s) t) (levDist s t))
termination_by s t => s.length + t.length

/-- suggestLoopTrace is `suggestLoop` instrumented to record, with every
emitted entry, the outer stratum index `i` at the moment of emission: the
frames, stacks, guards and control flow are identical, only the result
accumulator carries the extra tag. -/
def suggestLoopTrace (nf : Nfa) (process : Node → Int → Option (List KV × Bool)) (limit : Int) : Nat → List (List Frame) → Nat → List (KV × Nat) → Option (Option (List (KV × Nat)))
  | 0, _, _, _ => none
  | fuel + 1, stks, i, results =>
    if hi : i < stks.length then
      match stks.get ⟨i, hi⟩ with
      | [] => suggestLoopTrace nf process limit fuel stks (i + 1) results
      | f :: rest =>
        let stks1 := stks.set i rest
        if accepts nf f.s then
          match process f.n (limit - (results.length : Int)) with
          | none => none
          | some (rs, halt) =>
            let results1 := results ++ rs.map (fun kv => (kv, i))
            if (results1.length : Int) ≥ limit then
              if limit < 0 then some none
              else some (some (results1.take limit.toNat))
            else if halt then suggestLoopTrace nf process limit fuel stks1 i results1
            else
              match pushChildrenFrames nf f.s (wrap8 (nf.d + 1)) f.n.child stks1 with
              | none => some none
              | some stks2 => suggestLoopTrace nf process limit fuel stks2 i results1
        else
          match pushChildrenFrames nf f.s (wrap8 (nf.d + 1)) f.n.child stks1 with
          | none => some none
          | some stks2 => suggestLoopTrace nf process limit fuel stks2 i results
    else some (some results)

/-- suggestTrace is `suggest` instrumented with emission strata, built on
`suggestLoopTrace` with the same initialization as `suggest`. -/
def suggestTrace (fuel : Nat) (process : Node → Int → Option (List KV × Bool)) (root : Node) (runes : List Nat) (d : Int) (limit : Int) : Option (Option (List (KV × Nat))) :=
  let nf := newNfa runes d
  let start := nfaStart nf
  let len := (d + 1).toNat
  if len = 0 then some none
  else
    suggestLoopTrace nf process limit fuel
      (([⟨root, start⟩] : List Frame) :: List.replicate (len - 1) []) 0 []

/-- nextDist is the claim-side quantity for the horizontal contribution of
a transition: the distance from position `P` to the next position `x ≥ P`
inside the query where the query holds scalar `r`, or `none` when there is
no such position.  (`find?` over the ascending range of positions returns
the least such position.) -/
def nextDist (rs : List Nat) (r : Nat) (P : Int) : Option Int :=
  ((List.range rs.length).find?
      (fun (x : Nat) => decide (P ≤ (x : Int)) && decide (rs.getD x 0 = r))).map
    (fun x => (x : Int) - P)

/-- cappedDist caps the claim-side next-match distance at d+1, with d+1
also standing for "no match". -/
def cappedDist (d : Int) : Option Int → Int
  | some δ => min (d + 1) δ
  | none => d + 1

/-- specCell is the claim-side value of diagonal `j` of the successor
state: the minimum of the horizontal contribution `arr[j]` plus the capped
next-match distance from `offset + j + arr[j]`, the diagonal contribution
`arr[j+1] + 1` when `j < 2d`, and the vertical contribution `arr[j+2] + 1`
when `j < 2d - 1`; with `d+1` written whenever that minimum is at least
`d+1`. -/
def specCell (nf : Nfa) (s : NState) (r : Nat) (j : Nat) : Int :=
  let aj := s.arr.getD j 0
  let hor := aj + cappedDist nf.d (nextDist nf.rs r (s.offset + j + aj))
  let m1 := if (j : Int) < 2 * nf.d then min hor (s.arr.getD (j + 1) 0 + 1) else hor
  let m2 := if (j : Int) < 2 * nf.d - 1 then min m1 (s.arr.getD (j + 2) 0 + 1) else m1
  if m2 ≥ nf.d + 1 then nf.d + 1 else m2

/-- specTransition is the claim-side description of `transition`: a
successor state with offset increased by one whose cells are the
`specCell` values, together with the smallest active value across the
cells, or `d+1` when all diagonals are inactive. -/
def specTransition (nf : Nfa) (s : NState) (r : Nat) : NState × Int :=
  let cells := (List.range (2 * nf.d + 1).toNat).map (specCell nf s r)
  (⟨s.offset + 1, cells⟩, cells.foldr min (nf.d + 1))

/-- SuggestOp is the state-passing form of Go's `Trie.Suggest`: the method
takes its receiver by value and its implementation (`suggest`,
`doNotExpandSuffixes`, `nfa.transition`, `nfa.accepts`) contains no
assignment to any node's child map or entry — the only node mutations in
the package are in `Trie.Set` and `Trie.Delete` — so the operation maps a
trie to the unchanged trie together with its results. -/
def SuggestOp (fuel : Nat) (t : Node) (key : List Nat) (d : Int) (n : Int) : Node × Option (Option (List KV)) :=
  (t, Suggest fuel t key d n)

/-- SuggestSuffixesOp is the state-passing form of Go's
`Trie.SuggestSuffixes`; see `SuggestOp` for why the trie component is
unchanged. -/
def SuggestSuffixesOp (fuel : Nat) (t : Node) (key : List Nat) (d : Int) (n : Int) : Node × Option (Option (List KV)) :=
  (t, SuggestSuffixes fuel t key d n)

/-- SuggestAfterExactPrefixOp is the state-passing form of Go's
`Trie.SuggestAfterExactPrefix`; see `SuggestOp` for why the trie component
is unchanged. -/
def SuggestAfterExactPrefixOp (fuel : Nat) (t : Node) (key : List Nat) (cp : Nat) (p : Int) (d : Int) (n : Int) : Node × Option (Option (List KV)) :=
  (t, SuggestAfterExactPrefix fuel t key cp p d n)

/-- SuggestSuffixesAfterExactPrefixOp is the state-passing form of Go's
`Trie.SuggestSuffixesAfterExactPrefix`; see `SuggestOp` for why the trie
component is unchanged. -/
def SuggestSuffixesAfterExactPrefixOp (fuel : Nat) (t : Node) (key : List Nat) (cp : Nat) (p : Int) (d : Int) (n : Int) : Node × Option (Option (List KV)) :=
  (t, SuggestSuffixesAfterExactPrefix fuel t key cp p d n)

/-- jrefAux is the wrap-free reference value of a jump-table entry, defined
top-down: `jrefAux i k` is the entry at index `i` when `k` indexes remain
above `i` (so `i + k` is the last index of the table): 0 at a match
position, and otherwise one more than the entry above, starting from `d+1`
at the top. -/
def jrefAux (rs : List Nat) (r : Nat) (o : Int) (d : Int) : Nat → Nat → Int
  | i, 0 => if matchAt rs r (o + i) then 0 else d + 1
  | i, k + 1 => if matchAt rs r (o + i) then 0 else jrefAux rs r o d (i + 1) k + 1

/-!  Theorems.  -/

theorem wrap8_eq_of_bounds (x : Int) (h1 : -128 ≤ x) (h2 : x ≤ 127) : wrap8 x = x := by
  unfold wrap8
  have h3 : (x + 128) % 256 = x + 128 := Int.emod_eq_of_lt (by omega) (by omega)
  omega

theorem childLookup_childInsert_self (cs : List (Nat × Node)) (r : Nat) (n : Node) :
    childLookup (childInsert cs r n) r = some n := by
  induction cs with
  | nil => simp [childInsert, childLookup]
  | cons p rest ih =>
    obtain ⟨a, m⟩ := p
    by_cases h : a = r
    · simp [childInsert, childLookup, h]
    · simp [childInsert, childLookup, h, ih]

theorem childLookup_childInsert_other (cs : List (Nat × Node)) (r r' : Nat) (n : Node)
    (h : r' ≠ r) : childLookup (childInsert cs r n) r' = childLookup cs r' := by
  induction cs with
  | nil =>
    have hne : ¬ r = r' := fun hh => h hh.symm
    simp [childInsert, childLookup, hne]
  | cons p rest ih =>
    obtain ⟨a, m⟩ := p
    by_cases ha : a = r
    · subst ha
      have hne : ¬ (a = r') := fun hh => h hh.symm
      simp [childInsert, childLookup, hne]
    · by_cases ha' : a = r'
      · simp [childInsert, childLookup, ha, ha', h]
      · simp [childInsert, childLookup, ha, ha', ih]

theorem Get_emptyNode (ks : List Nat) : Get (Node.mk [] none) ks = none := by
  cases ks <;> simp [Get, childLookup]

theorem Get_setNode_same : ∀ (t : Node) (ks key : List Nat) (v : String),
    Get (setNode t ks key v) ks = some v := by
  intro t ks
  induction ks generalizing t with
  | nil =>
    intro key v
    cases t with
    | mk cs d => simp [setNode, Get]
  | cons r ks ih =>
    intro key v
    cases t with
    | mk cs d => simp [setNode, Get, childLookup_childInsert_self, ih]

theorem Get_setNode_other : ∀ (t : Node) (ks ks' key : List Nat) (v : String), ks' ≠ ks →
    Get (setNode t ks key v) ks' = Get t ks' := by
  intro t ks
  induction ks generalizing t with
  | nil =>
    intro ks' key v hne
    cases t with
    | mk cs d =>
      cases ks' with
      | nil => exact absurd rfl hne
      | cons r' l' => simp [setNode, Get]
  | cons r ks ih =>
    intro ks' key v hne
    cases t with
    | mk cs d =>
      cases ks' with
      | nil => simp [setNode, Get]
      | cons r' l' =>
        by_cases hr : r' = r
        · subst hr
          have hl : l' ≠ ks := by
            intro hl
            exact hne (by rw [hl])
          simp only [setNode, Get, childLookup_childInsert_self]
          rw [ih _ _ _ _ hl]
          cases hcl : childLookup cs r' with
          | none => simp [Get, hcl, Get_emptyNode]
          | some c => simp [Get, hcl]
        · simp only [setNode, Get, childLookup_childInsert_other cs r r' _ hr]

/-- C9: after `set(k1,v1); set(k2,v2)`, `get(k2)` returns `(v2, true)`, and
when `k1 ≠ k2`, `get(k1)` returns `(v1, true)` (when `k1 = k2` the second
write overwrites the first, so `get(k1) = get(k2) = (v2, true)` is the
first conjunct). -/
theorem set_set_get (t : Node) (k1 k2 : List Nat) (v1 v2 : String) :
    Get (Set (Set t k1 v1) k2 v2) k2 = some v2 ∧
    (k1 ≠ k2 → Get (Set (Set t k1 v1) k2 v2) k1 = some v1) := by
  refine ⟨Get_setNode_same _ _ _ _, fun h => ?_⟩
  rw [Set, Get_setNode_other _ _ _ _ _ h]
  exact Get_setNode_same _ _ _ _

/-- Witness for `set_set_get` at concrete keys [97] and [98]. -/
theorem set_set_get_spot :
    Get (Set (Set New [97] "x") [98] "y") [98] = some "y" ∧
    Get (Set (Set New [97] "x") [98] "y") [97] = some "x" :=
  ⟨(set_set_get New [97] [98] "x" "y").1,
   (set_set_get New [97] [98] "x" "y").2 (by decide)⟩

/-- C7 counterexample: the claim says the root never carries an entry and
`Get("")` always returns `(empty, false)`, but after `Set("", "v")` the Go
code stores the entry at the root and `Get("")` returns `("v", true)`. -/
theorem root_terminal_after_set_empty_key :
    Get (Set New [] "v") [] = some "v" := by decide

/-- C7 (amended): the root node can carry an entry: after `Set("", v)` on
any trie, `Get("")` returns `(v, true)` (the empty key is stored at the
root, which the repository's own tests rely on). -/
theorem get_empty_key_after_set_empty_key (t : Node) (v : String) :
    Get (Set t [] v) [] = some v := by
  cases t with
  | mk cs d => simp [Set, setNode, Get]

/-- C2: evaluation at the failing input.  With keys "a" (value "1") and
"ab" (value "2"), deleting "ab" also removes the entry for "a": the cut
point tracked by Go `Trie.Delete` considers only child counts, never
whether an intermediate node is terminal, so the whole chain below the root
is discarded.  Before the delete, `Get("a")` returns `("1", true)`; after
it, both keys are gone. -/
theorem delete_removes_sibling_key :
    Get (Set (Set New [97] "1") [97, 98] "2") [97] = some "1" ∧
    (Delete (Set (Set New [97] "1") [97, 98] "2") [97, 98]).map
      (fun u => (Get u [97], Get u [97, 98])) = some (none, none) := by decide

/-- C1: evaluation at the failing input.  With the single key "" (stored
via `Set("", "v")`) and a query of 256 scalars at bound d = 0 and limit 1,
`Suggest` returns the entry for "" even though its edit distance from the
query is 256: `nfa.accepts` truncates `len(rs) - offset - i` to `int8`,
and 256 wraps to 0. -/
theorem suggest_returns_entry_outside_distance :
    Suggest 9 (Set New [] "v") (List.replicate 256 97) 0 1 =
      some (some [⟨[], "v"⟩]) ∧
    levDist [] (List.replicate 256 97) = 256 := by
  refine ⟨by decide, ?_⟩
  simp [levDist]

/-- C5: evaluation at the failing input.  At d = 32 (inside the claim's
domain d ≤ 126) with the single key "a" and the empty query, `Suggest`
crashes: the jump-table entries reach 4d+2 = 130, which wraps in `int8`,
so in `nfa.transition` the horizontal sum `arr[j] + jump[j+arr[j]]`
becomes 33 + 97 = 130 = -126 as `int8`, the reported minimum is negative,
and `stacks[min]` indexes out of range. -/
theorem suggest_crashes_at_d32 :
    Suggest 9 (Set New [97] "a") [] 32 10 = some none := by decide

/-- C6: evaluation at the failing input.  At d = 32 with keys "a" and
"b"×33 and the query "b"×33, `SuggestSuffixes` crashes while transitioning
into the subtree of "a" (the same 8-bit jump-table overflow as in
`Suggest`), so it never returns the entry for "b"×33 even though that
key's full prefix is at distance 0 ≤ d from the query. -/
theorem suggestSuffixes_crashes_at_d32 :
    SuggestSuffixes 9 (Set (Set New [97] "a") (List.replicate 33 98) "bs")
      (List.replicate 33 98) 32 10 = some none := by decide

/-- C8 counterexample: with prefix count p = 1000 on the one-scalar query
"a" (whose decoded rune slice has append capacity 2 under the gc runtime),
both exact-prefix operations crash — Go slices `runes[:p]` far beyond the
backing array's capacity — instead of returning an empty sequence. -/
theorem exact_prefix_ops_crash_on_large_p :
    SuggestAfterExactPrefix 9 New [97] 2 1000 0 1 = some none ∧
    SuggestSuffixesAfterExactPrefix 9 New [97] 2 1000 0 1 = some none := by decide

/-- C8 (amended): when the prefix count p exceeds the number of scalars in
the query, the two exact-prefix operations do not, in general, fail
gracefully.  With `cp` the capacity `append` left on the decoded rune
slice: if p also exceeds `cp`, `runes[:p]` panics; if p is within `cp`,
the slice silently reads zero-valued scalars, and the operations return an
empty sequence exactly when the zero-extended prefix path is absent from
the trie — when the trie does contain that path, the final slice
`runes[p:]` (that is, `runes[p:len]`) panics instead. -/
theorem exact_prefix_ops_beyond_scalars (fuel : Nat) (t : Node)
    (key : List Nat) (cp : Nat) (p d n : Int) (h : (key.length : Int) < p) :
    ((cp : Int) < p →
      SuggestAfterExactPrefix fuel t key cp p d n = some none ∧
      SuggestSuffixesAfterExactPrefix fuel t key cp p d n = some none) ∧
    (p ≤ (cp : Int) →
      descend t ((key ++ List.replicate (cp - key.length) 0).take p.toNat) = none →
      SuggestAfterExactPrefix fuel t key cp p d n = some (some []) ∧
      SuggestSuffixesAfterExactPrefix fuel t key cp p d n = some (some [])) ∧
    (p ≤ (cp : Int) → ∀ curr,
      descend t ((key ++ List.replicate (cp - key.length) 0).take p.toNat) = some curr →
      SuggestAfterExactPrefix fuel t key cp p d n = some none ∧
      SuggestSuffixesAfterExactPrefix fuel t key cp p d n = some none) := by
  refine ⟨fun hcp => ?_, fun hcp hde => ?_, fun hcp curr hde => ?_⟩
  · rw [SuggestAfterExactPrefix, SuggestSuffixesAfterExactPrefix, sliceTo,
      if_pos (Or.inr hcp)]
    exact ⟨rfl, rfl⟩
  · rw [SuggestAfterExactPrefix, SuggestSuffixesAfterExactPrefix, sliceTo,
      if_neg (by omega)]
    dsimp only
    rw [hde]
    exact ⟨rfl, rfl⟩
  · rw [SuggestAfterExactPrefix, SuggestSuffixesAfterExactPrefix, sliceTo,
      if_neg (by omega)]
    dsimp only
    rw [hde]
    dsimp only
    rw [if_pos h, if_pos h]
    exact ⟨rfl, rfl⟩

/-- Witness for `exact_prefix_ops_beyond_scalars` at the concrete input key
[97], capacity 2, p = 2, on the empty trie: p is within the capacity and
the zero-extended prefix path is absent, so both operations return the
empty sequence — the graceful case of the dichotomy. -/
theorem exact_prefix_ops_beyond_scalars_spot :
    (([97] : List Nat).length : Int) < 2 ∧
    SuggestAfterExactPrefix 5 New [97] 2 2 0 1 = some (some []) ∧
    SuggestSuffixesAfterExactPrefix 5 New [97] 2 2 0 1 = some (some []) :=
  ⟨by decide,
    (exact_prefix_ops_beyond_scalars 5 New [97] 2 2 0 1 (by decide)).2.1
      (by decide) (by rfl)⟩

/-- C10: the four approximate-search operations do not mutate the trie: in
the state-passing embedding each returns its receiver unchanged (the Go
implementations contain no assignment to any node), so `Get` of any key is
the same before and after the call. -/
theorem suggest_ops_preserve_trie (fuel : Nat) (t : Node) (key k : List Nat)
    (cp : Nat) (p d n : Int) :
    Get (SuggestOp fuel t key d n).1 k = Get t k ∧
    Get (SuggestSuffixesOp fuel t key d n).1 k = Get t k ∧
    Get (SuggestAfterExactPrefixOp fuel t key cp p d n).1 k = Get t k ∧
    Get (SuggestSuffixesAfterExactPrefixOp fuel t key cp p d n).1 k = Get t k :=
  ⟨rfl, rfl, rfl, rfl⟩

/-- C3 counterexample: with keys "a" and "abx" and query "abc" at d = 2,
`Suggest` emits "a" (edit distance 2) before "abx" (edit distance 1): "a"
is reached while the NFA minimum is still 0 and accepted from stratum 0,
while "abx" enters stratum 1, so the produced sequence is not
non-decreasing in true edit distance. -/
theorem suggest_not_sorted_by_edit_distance :
    Suggest 30 (Set (Set New [97] "a") [97, 98, 120] "abx") [97, 98, 99] 2 5 =
      some (some [⟨[97], "a"⟩, ⟨[97, 98, 120], "abx"⟩]) ∧
    levDist [97] [97, 98, 99] = 2 ∧ levDist [97, 98, 120] [97, 98, 99] = 1 := by
  refine ⟨by decide, ?_, ?_⟩ <;> simp [levDist]

theorem suggestLoop_eq_trace (nf : Nfa) (process : Node → Int → Option (List KV × Bool)) (limit : Int) :
    ∀ (fuel : Nat) (stks : List (List Frame)) (i : Nat) (acc : List (KV × Nat)),
      suggestLoop nf process limit fuel stks i (acc.map Prod.fst) =
        (suggestLoopTrace nf process limit fuel stks i acc).map (Option.map (List.map Prod.fst)) := by
  intro fuel
  induction fuel with
  | zero => intro stks i acc; rfl
  | succ fuel ih =>
    intro stks i acc
    rw [suggestLoop, suggestLoopTrace]
    by_cases hi : i < stks.length
    · rw [dif_pos hi, dif_pos hi]
      cases hst : stks.get ⟨i, hi⟩ with
      | nil => exact ih stks (i + 1) acc
      | cons f rest =>
        dsimp only
        by_cases ha : accepts nf f.s
        · rw [if_pos ha, if_pos ha]
          simp only [List.length_map]
          cases hp : process f.n (limit - (acc.length : Int)) with
          | none => rfl
          | some pr =>
            obtain ⟨rs, halt⟩ := pr
            dsimp only
            have hlen : ((acc.map Prod.fst ++ rs).length : Int) =
                ((acc ++ rs.map (fun kv => (kv, i))).length : Int) := by
              simp
            by_cases hlim : ((acc ++ rs.map (fun kv => (kv, i))).length : Int) ≥ limit
            · rw [if_pos (by rw [hlen]; exact hlim), if_pos hlim]
              by_cases hneg : limit < 0
              · rw [if_pos hneg, if_pos hneg]; rfl
              · rw [if_neg hneg, if_neg hneg]
                simp [List.map_take, Function.comp_def]
            · rw [if_neg (by rw [hlen]; exact hlim), if_neg hlim]
              by_cases hh : halt = true
              · rw [if_pos hh, if_pos hh]
                have := ih (stks.set i rest) i (acc ++ rs.map (fun kv => (kv, i)))
                simpa [Function.comp_def] using this
              · rw [if_neg hh, if_neg hh]
                cases hpc : pushChildrenFrames nf f.s (wrap8 (nf.d + 1)) f.n.child (stks.set i rest) with
                | none => rfl
                | some stks2 =>
                  have := ih stks2 i (acc ++ rs.map (fun kv => (kv, i)))
                  simpa [Function.comp_def] using this
        · rw [if_neg ha, if_neg ha]
          cases hpc : pushChildrenFrames nf f.s (wrap8 (nf.d + 1)) f.n.child (stks.set i rest) with
          | none => rfl
          | some stks2 => exact ih stks2 i acc
    · rw [dif_neg hi, dif_neg hi]; rfl

theorem suggest_eq_trace (fuel : Nat) (process : Node → Int → Option (List KV × Bool)) (root : Node) (runes : List Nat) (d limit : Int) :
    suggest fuel process root runes d limit =
      (suggestTrace fuel process root runes d limit).map (Option.map (List.map Prod.fst)) := by
  rw [suggest, suggestTrace]
  by_cases h : (d + 1).toNat = 0
  · rw [if_pos h, if_pos h]; rfl
  · rw [if_neg h, if_neg h]
    exact suggestLoop_eq_trace _ _ _ _ _ _ []

theorem sorted_map_const {α : Type} (l : List α) (i : Nat) :
    (l.map (fun _ => i)).Sorted (· ≤ ·) := by
  induction l with
  | nil => simp
  | cons x l ih =>
    simp only [List.map_cons, List.sorted_cons]
    exact ⟨fun b hb => by
      simp only [List.mem_map] at hb
      obtain ⟨_, _, hb⟩ := hb
      omega, ih⟩

theorem suggestLoopTrace_sorted (nf : Nfa) (process : Node → Int → Option (List KV × Bool)) (limit : Int) :
    ∀ (fuel : Nat) (stks : List (List Frame)) (i : Nat) (acc : List (KV × Nat)) (out : List (KV × Nat)),
      suggestLoopTrace nf process limit fuel stks i acc = some (some out) →
      (∀ p ∈ acc, p.2 ≤ i) →
      (acc.map Prod.snd).Sorted (· ≤ ·) →
      (out.map Prod.snd).Sorted (· ≤ ·) := by
  intro fuel
  induction fuel with
  | zero => intro stks i acc out h; exact absurd h (by simp [suggestLoopTrace])
  | succ fuel ih =>
    intro stks i acc out h hle hs
    rw [suggestLoopTrace] at h
    by_cases hi : i < stks.length
    · rw [dif_pos hi] at h
      cases hst : stks.get ⟨i, hi⟩ with
      | nil =>
        rw [hst] at h
        exact ih stks (i + 1) acc out h (fun p hp => Nat.le_succ_of_le (hle p hp)) hs
      | cons f rest =>
        rw [hst] at h
        dsimp only at h
        have hsorted_app : ∀ rs : List KV,
            ((acc ++ rs.map (fun kv => (kv, i))).map Prod.snd).Sorted (· ≤ ·) := by
          intro rs
          rw [List.map_append]
          refine List.pairwise_append.mpr ⟨hs, ?_, ?_⟩
          · have h2 : (rs.map (fun kv => (kv, i))).map Prod.snd = rs.map (fun _ => i) := by
              simp [Function.comp_def]
            rw [h2]; exact sorted_map_const rs i
          · intro a hamem b hbmem
            simp only [List.map_map, List.mem_map, Function.comp_def] at hbmem
            obtain ⟨kv, _, rfl⟩ := hbmem
            simp only [List.mem_map] at hamem
            obtain ⟨p, hp, rfl⟩ := hamem
            exact hle p hp
        have hle_app : ∀ rs : List KV, ∀ p ∈ acc ++ rs.map (fun kv => (kv, i)), p.2 ≤ i := by
          intro rs p hp
          rcases List.mem_append.mp hp with hp | hp
          · exact hle p hp
          · simp only [List.mem_map] at hp
            obtain ⟨kv, _, rfl⟩ := hp
            exact le_refl i
        by_cases ha : accepts nf f.s
        · rw [if_pos ha] at h
          cases hp : process f.n (limit - (acc.length : Int)) with
          | none => rw [hp] at h; exact absurd h (by simp)
          | some pr =>
            obtain ⟨rs, halt⟩ := pr
            rw [hp] at h
            dsimp only at h
            by_cases hlim : ((acc ++ rs.map (fun kv => (kv, i))).length : Int) ≥ limit
            · rw [if_pos hlim] at h
              by_cases hneg : limit < 0
              · rw [if_pos hneg] at h; exact absurd h (by simp)
              · rw [if_neg hneg] at h
                have hout : out = (acc ++ rs.map (fun kv => (kv, i))).take limit.toNat := by
                  have := Option.some.inj (Option.some.inj h)
                  exact this.symm
                subst hout
                rw [List.map_take]
                exact List.Pairwise.sublist (List.take_sublist _ _) (hsorted_app rs)
            · rw [if_neg hlim] at h
              by_cases hh : halt = true
              · rw [if_pos hh] at h
                exact ih _ i _ out h (hle_app rs) (hsorted_app rs)
              · rw [if_neg hh] at h
                cases hpc : pushChildrenFrames nf f.s (wrap8 (nf.d + 1)) f.n.child (stks.set i rest) with
                | none => rw [hpc] at h; exact absurd h (by simp)
                | some stks2 =>
                  rw [hpc] at h
                  exact ih stks2 i _ out h (hle_app rs) (hsorted_app rs)
        · rw [if_neg ha] at h
          cases hpc : pushChildrenFrames nf f.s (wrap8 (nf.d + 1)) f.n.child (stks.set i rest) with
          | none => rw [hpc] at h; exact absurd h (by simp)
          | some stks2 =>
            rw [hpc] at h
            exact ih stks2 i acc out h hle hs
    · rw [dif_neg hi] at h
      have : acc = out := Option.some.inj (Option.some.inj h)
      subst this
      exact hs

/-- C3 (amended): the emitted entries of a traversal are ordered by the
stratum index -- the minimum distance of the NFA active-state set at the
moment of emission -- not by the true edit distance of the emitted key:
whenever the instrumented traversal returns normally, the plain traversal
returns its entries in the same order and the recorded strata are
non-decreasing.  This covers all four public operations, which are
instances of `suggest`. -/
theorem suggest_sorted_by_stratum (fuel : Nat) (process : Node → Int → Option (List KV × Bool)) (root : Node) (runes : List Nat) (d limit : Int) (tl : List (KV × Nat))
    (h : suggestTrace fuel process root runes d limit = some (some tl)) :
    suggest fuel process root runes d limit = some (some (tl.map Prod.fst)) ∧
    (tl.map Prod.snd).Sorted (· ≤ ·) := by
  constructor
  · rw [suggest_eq_trace, h]; rfl
  · rw [suggestTrace] at h
    by_cases h0 : (d + 1).toNat = 0
    · rw [if_pos h0] at h; exact absurd h (by simp)
    · rw [if_neg h0] at h
      exact suggestLoopTrace_sorted _ _ _ fuel _ 0 [] tl h (by simp) (by simp)

/-- Witness for `suggest_sorted_by_stratum` on the one-key trie {"a"} with
query "a", d = 0, limit 5. -/
theorem suggest_sorted_by_stratum_spot :
    suggest 20 (fun nd lim => some (doNotExpandSuffixes nd lim)) (Set New [97] "x") [97] 0 5 =
      some (some (([(⟨[97], "x"⟩, 0)] : List (KV × Nat)).map Prod.fst)) ∧
    (([(⟨[97], "x"⟩, 0)] : List (KV × Nat)).map Prod.snd).Sorted (· ≤ ·) :=
  suggest_sorted_by_stratum 20 (fun nd lim => some (doNotExpandSuffixes nd lim))
    (Set New [97] "x") [97] 0 5 [(⟨[97], "x"⟩, 0)] (by decide)

theorem find?_range_eq_some {p : Nat → Bool} {n x0 : Nat} (h0 : x0 < n) (hp : p x0 = true)
    (hmin : ∀ x, x < x0 → p x = false) : (List.range n).find? p = some x0 := by
  induction n with
  | zero => omega
  | succ n ih =>
    rw [List.range_succ, List.find?_append]
    by_cases hx : x0 < n
    · rw [ih hx]; rfl
    · have hx0 : x0 = n := by omega
      subst hx0
      have hnone : (List.range x0).find? p = none := by
        rw [List.find?_eq_none]
        intro x hx
        rw [List.mem_range] at hx
        simp [hmin x hx]
      rw [hnone]
      simp [List.find?, hp]

theorem find?_range_eq_none {p : Nat → Bool} {n : Nat}
    (hall : ∀ x, x < n → p x = false) : (List.range n).find? p = none := by
  rw [List.find?_eq_none]
  intro x hx
  rw [List.mem_range] at hx
  simp [hall x hx]

theorem jrefAux_bounds (rs : List Nat) (r : Nat) (o : Int) (d : Int) (hd : 0 ≤ d) :
    ∀ (m : Nat) (i : Nat), 0 ≤ jrefAux rs r o d i m ∧ jrefAux rs r o d i m ≤ d + 1 + m := by
  intro m
  induction m with
  | zero =>
    intro i
    rw [jrefAux]
    split <;> constructor <;> omega
  | succ m ih =>
    intro i
    rw [jrefAux]
    split
    · constructor <;> omega
    · have := ih (i + 1)
      constructor <;> push_cast <;> omega

theorem jrefAux_of_match (rs : List Nat) (r : Nat) (o : Int) (d : Int) :
    ∀ (m : Nat) (i : Nat), matchAt rs r (o + i) = true → jrefAux rs r o d i m = 0 := by
  intro m i h
  cases m <;> rw [jrefAux] <;> simp [h]

theorem jrefAux_of_no_match (rs : List Nat) (r : Nat) (o : Int) (d : Int) :
    ∀ (m : Nat) (i : Nat), (∀ x, i ≤ x → x ≤ i + m → matchAt rs r (o + x) = false) →
      jrefAux rs r o d i m = d + 1 + m := by
  intro m
  induction m with
  | zero =>
    intro i h
    rw [jrefAux]
    simp [h i (le_refl i) (by omega)]
  | succ m ih =>
    intro i h
    rw [jrefAux]
    rw [h i (le_refl i) (by omega)]
    simp only [Bool.false_eq_true, if_false]
    rw [ih (i + 1) (fun x hx1 hx2 => h x (by omega) (by omega))]
    push_cast
    ring

theorem jrefAux_of_least_match (rs : List Nat) (r : Nat) (o : Int) (d : Int) :
    ∀ (m : Nat) (i : Nat) (mm : Nat), i ≤ mm → mm ≤ i + m →
      matchAt rs r (o + mm) = true →
      (∀ x, i ≤ x → x < mm → matchAt rs r (o + x) = false) →
      jrefAux rs r o d i m = ((mm - i : Nat) : Int) := by
  intro m
  induction m with
  | zero =>
    intro i mm h1 h2 h3 _
    have hmi : mm = i := by omega
    rw [hmi] at h3 ⊢
    rw [jrefAux_of_match rs r o d 0 i h3]
    simp [Nat.sub_self]
  | succ m ih =>
    intro i mm h1 h2 h3 h4
    by_cases hmi : mm = i
    · rw [hmi] at h3 ⊢
      rw [jrefAux_of_match rs r o d _ i h3]
      simp [Nat.sub_self]
    · have hii : matchAt rs r (o + i) = false := h4 i (le_refl i) (by omega)
      rw [jrefAux]
      rw [hii]
      simp only [Bool.false_eq_true, if_false]
      rw [ih (i + 1) mm (by omega) (by omega) h3 (fun x hx1 hx2 => h4 x (by omega) hx2)]
      have : mm - i = (mm - (i + 1)) + 1 := by omega
      rw [this]
      push_cast
      ring

theorem buildJump_acc (rs : List Nat) (r : Nat) (o : Int) :
    ∀ (k : Nat) (next : Int) (acc : List Int),
      buildJump rs r o k next acc = buildJump rs r o k next [] ++ acc := by
  intro k
  induction k with
  | zero => intro next acc; simp [buildJump]
  | succ k ih =>
    intro next acc
    rw [buildJump, buildJump]
    generalize (if matchAt rs r (o + (k : Int)) = true then (0 : Int) else next) = nx
    rw [ih (wrap8 (nx + 1)) (nx :: acc), ih (wrap8 (nx + 1)) [nx]]
    simp

theorem buildJump_eq_jref (rs : List Nat) (r : Nat) (o : Int) (d : Int) (len : Nat)
    (hd : 0 ≤ d) (hlb : d + 1 + (len : Int) ≤ 128) :
    ∀ (k : Nat), k ≤ len →
      buildJump rs r o k
          (if _ : k < len then wrap8 (jrefAux rs r o d k (len - 1 - k) + 1) else wrap8 (d + 1)) [] =
        (List.range k).map (fun i => jrefAux rs r o d i (len - 1 - i)) := by
  intro k
  induction k with
  | zero => intro _; simp [buildJump]
  | succ k ih =>
    intro hk
    have hklt : k < len := by omega
    rw [buildJump]
    have hnx : (if matchAt rs r (o + k) = true then 0
        else if h : k + 1 < len then wrap8 (jrefAux rs r o d (k + 1) (len - 1 - (k + 1)) + 1)
          else wrap8 (d + 1)) = jrefAux rs r o d k (len - 1 - k) := by
      by_cases hm : matchAt rs r (o + k) = true
      · rw [if_pos hm, jrefAux_of_match rs r o d _ k hm]
      · rw [if_neg hm]
        by_cases hk1 : k + 1 < len
        · rw [dif_pos hk1]
          have hb := jrefAux_bounds rs r o d hd (len - 1 - (k + 1)) (k + 1)
          rw [wrap8_eq_of_bounds _ (by omega) (by omega)]
          have hsplit : len - 1 - k = (len - 1 - (k + 1)) + 1 := by omega
          rw [hsplit, jrefAux]
          simp [hm]
        · have hktop : len - 1 - k = 0 := by omega
          rw [dif_neg hk1, hktop, jrefAux]
          rw [wrap8_eq_of_bounds _ (by omega) (by omega)]
          simp [hm]
    rw [hnx]
    rw [buildJump_acc]
    have ihk := ih (by omega)
    rw [dif_pos hklt] at ihk
    rw [ihk, List.range_succ, List.map_append]
    rfl

theorem mkJump_get (nf : Nfa) (o : Int) (r : Nat)
    (hd : 0 ≤ nf.d) (hd31 : nf.d ≤ 31) (idx : Nat) (hidx : idx < (3 * nf.d + 2).toNat) :
    (mkJump nf o r).get? idx =
      some (jrefAux nf.rs r o nf.d idx ((3 * nf.d + 2).toNat - 1 - idx)) := by
  have hlen : ((3 * nf.d + 2).toNat : Int) = 3 * nf.d + 2 := Int.toNat_of_nonneg (by omega)
  have h := buildJump_eq_jref nf.rs r o nf.d (3 * nf.d + 2).toNat hd (by omega)
      (3 * nf.d + 2).toNat (le_refl _)
  rw [dif_neg (lt_irrefl _)] at h
  rw [mkJump, h, List.get?_map, List.get?_range hidx]
  rfl

theorem matchAt_true_iff (rs : List Nat) (r : Nat) (x : Int) :
    matchAt rs r x = true ↔ x < (rs.length : Int) ∧ 0 ≤ x ∧ rs.getD x.toNat 0 = r := by
  simp [matchAt, and_assoc]

theorem hor_min_eq (rs : List Nat) (r : Nat) (o d aj : Int) (j idx : Nat)
    (hd0 : 0 ≤ d) (hd31 : d ≤ 31)
    (haj0 : 0 ≤ aj) (haj1 : aj ≤ d + 1) (hj : (j : Int) ≤ 2 * d)
    (hidx : (idx : Int) = (j : Int) + aj) :
    min (d + 1) (aj + jrefAux rs r o d idx ((3 * d + 2).toNat - 1 - idx)) =
      min (d + 1) (aj + cappedDist d (nextDist rs r (o + (j : Int) + aj))) := by
  have hlenI : ((3 * d + 2).toNat : Int) = 3 * d + 2 := Int.toNat_of_nonneg (by omega)
  set len := (3 * d + 2).toNat with hlendef
  have hidxlt : idx < len := by omega
  have hsub : ((len - 1 - idx : Nat) : Int) = 3 * d + 1 - idx := by
    push_cast [Nat.sub_sub]
    omega
  have hP : o + (j : Int) + aj = o + (idx : Int) := by omega
  rw [hP]
  set P := o + (idx : Int) with hPdef
  by_cases hwin : ∃ mm, (idx ≤ mm ∧ mm ≤ len - 1) ∧ matchAt rs r (o + mm) = true
  · -- a match inside the scanned window: the jump entry is the exact distance
    have hfs := Nat.find_spec hwin
    set mm0 := Nat.find hwin with hmm0
    obtain ⟨⟨hmm1, hmm2⟩, hmm3⟩ := hfs
    have hleast : ∀ x, idx ≤ x → x < mm0 → matchAt rs r (o + x) = false := by
      intro x hx1 hx2
      have := Nat.find_min hwin hx2
      rw [Bool.eq_false_iff]
      intro hmx
      exact this ⟨⟨hx1, by omega⟩, hmx⟩
    have hjref : jrefAux rs r o d idx (len - 1 - idx) = ((mm0 - idx : Nat) : Int) :=
      jrefAux_of_least_match rs r o d (len - 1 - idx) idx mm0 hmm1 (by omega) hmm3 hleast
    rw [matchAt_true_iff] at hmm3
    obtain ⟨hm1, hm2, hm3⟩ := hmm3
    set x0 := (o + (mm0 : Int)).toNat with hx0def
    have hx0I : (x0 : Int) = o + mm0 := Int.toNat_of_nonneg hm2
    have hfind : (List.range rs.length).find?
        (fun (x : Nat) => decide (P ≤ (x : Int)) && decide (rs.getD x 0 = r)) = some x0 := by
      apply find?_range_eq_some
      · omega
      · simp only [Bool.and_eq_true, decide_eq_true_eq]
        refine ⟨by omega, ?_⟩
        rw [hx0def]
        exact hm3
      · intro x hxlt
        by_contra hcon
        rw [Bool.not_eq_false] at hcon
        simp only [Bool.and_eq_true, decide_eq_true_eq] at hcon
        obtain ⟨hPx, hrx⟩ := hcon
        have hxrs : x < rs.length := by omega
        have hxm : ((x : Int) - o) = ((x : Int) - o).toNat := (Int.toNat_of_nonneg (by omega)).symm
        set m := ((x : Int) - o).toNat with hmdef
        have hmI : (m : Int) = (x : Int) - o := by omega
        have hmlt : m < mm0 := by omega
        have hmge : idx ≤ m := by omega
        have hfalse := hleast m hmge hmlt
        rw [Bool.eq_false_iff] at hfalse
        apply hfalse
        rw [matchAt_true_iff]
        have hoxm : o + (m : Int) = (x : Int) := by omega
        rw [hoxm]
        refine ⟨by omega, by omega, ?_⟩
        have hxx : ((x : Int)).toNat = x := by omega
        rw [hxx]
        exact hrx
    have hcap : cappedDist d (nextDist rs r P) = min (d + 1) ((x0 : Int) - P) := by
      simp only [nextDist]
      rw [hfind]
      rfl
    have hdelta : ((x0 : Int) - P) = ((mm0 - idx : Nat) : Int) := by
      omega
    rw [hjref, hcap, hdelta]
    have hge : (0 : Int) ≤ ((mm0 - idx : Nat) : Int) := by positivity
    simp only [min_def]
    split_ifs <;> omega
  · -- no match in the window: both sides clamp to d+1
    push_neg at hwin
    have hnom : ∀ x, idx ≤ x → x ≤ idx + (len - 1 - idx) → matchAt rs r (o + x) = false := by
      intro x hx1 hx2
      have hx3 : x ≤ len - 1 := by omega
      have := hwin x
      rw [Bool.eq_false_iff]
      intro hmx
      exact (hwin x ⟨hx1, hx3⟩) hmx
    have hjref : jrefAux rs r o d idx (len - 1 - idx) = d + 1 + ((len - 1 - idx : Nat) : Int) :=
      jrefAux_of_no_match rs r o d (len - 1 - idx) idx hnom
    cases hfd : (List.range rs.length).find?
        (fun (x : Nat) => decide (P ≤ (x : Int)) && decide (rs.getD x 0 = r)) with
    | none =>
      have hcap : cappedDist d (nextDist rs r P) = d + 1 := by
        simp only [nextDist]
        rw [hfd]
        rfl
      rw [hjref, hcap, hsub]
      simp only [min_def]
      split_ifs <;> omega
    | some x0 =>
      have hx0p := List.find?_some hfd
      have hx0mem : x0 ∈ List.range rs.length := List.mem_of_find?_eq_some hfd
      rw [List.mem_range] at hx0mem
      simp only [Bool.and_eq_true, decide_eq_true_eq] at hx0p
      obtain ⟨hx0P, hx0r⟩ := hx0p
      -- the matched position lies beyond the window
      have hm0 : ((x0 : Int) - o) = (((x0 : Int) - o).toNat : Int) := (Int.toNat_of_nonneg (by omega)).symm
      set m0 := ((x0 : Int) - o).toNat with hm0def
      have hm0I : (m0 : Int) = (x0 : Int) - o := by omega
      have hm0ge : idx ≤ m0 := by omega
      have hbeyond : len - 1 < m0 := by
        by_contra hc
        push_neg at hc
        apply (hwin m0 ⟨hm0ge, hc⟩)
        rw [matchAt_true_iff]
        have hoxm : o + (m0 : Int) = (x0 : Int) := by omega
        rw [hoxm]
        refine ⟨by omega, by omega, ?_⟩
        have hxx : ((x0 : Int)).toNat = x0 := by omega
        rw [hxx]
        exact hx0r
      have hcap : cappedDist d (nextDist rs r P) = min (d + 1) ((x0 : Int) - P) := by
        simp only [nextDist]
        rw [hfd]
        rfl
      rw [hjref, hcap, hsub]
      have hdge : (x0 : Int) - P ≥ 3 * d + 2 - idx := by omega
      simp only [min_def]
      split_ifs <;> omega

theorem getD_of_get? {l : List Int} {j : Nat} {a : Int} (h : l.get? j = some a) (dflt : Int) :
    l.getD j dflt = a := by
  rw [List.getD, h, Option.getD_some]

theorem specCell_le (nf : Nfa) (s : NState) (r : Nat) (j : Nat) :
    specCell nf s r j ≤ nf.d + 1 := by
  simp only [specCell]
  split_ifs <;> omega

set_option maxHeartbeats 1000000 in
theorem codeCell_eq_specCell (nf : Nfa) (s : NState) (r : Nat) (j : Nat) (aj : Int)
    (hd0 : 0 ≤ nf.d) (hd31 : nf.d ≤ 31)
    (hlen : s.arr.length = (2 * nf.d + 1).toNat)
    (hrange : ∀ v ∈ s.arr, 0 ≤ v ∧ v ≤ nf.d + 1)
    (hjL : j < (2 * nf.d + 1).toNat)
    (hjlt : j < s.arr.length)
    (hsa : s.arr.get ⟨j, hjlt⟩ = aj) :
    codeCell s.arr (mkJump nf s.offset r) (nf.d + 1) j = specCell nf s r j := by
  have hLI : ((2 * nf.d + 1).toNat : Int) = 2 * nf.d + 1 := Int.toNat_of_nonneg (by omega)
  have hlenI3 : ((3 * nf.d + 2).toNat : Int) = 3 * nf.d + 2 := Int.toNat_of_nonneg (by omega)
  have hsa' : s.arr.get? j = some aj := by rw [List.get?_eq_get hjlt, hsa]
  obtain ⟨haj0, haj1⟩ := hrange aj (by rw [← hsa]; exact s.arr.get_mem j hjlt)
  have hidx0 : (0 : Int) ≤ (j : Int) + aj := by omega
  have hidxI : (((j : Int) + aj).toNat : Int) = (j : Int) + aj := Int.toNat_of_nonneg hidx0
  have hidxlt : ((j : Int) + aj).toNat < (3 * nf.d + 2).toNat := by omega
  have hjget := mkJump_get nf s.offset r hd0 hd31 _ hidxlt
  set idxNat := ((j : Int) + aj).toNat with hidxdef
  set jref := jrefAux nf.rs r s.offset nf.d idxNat ((3 * nf.d + 2).toNat - 1 - idxNat) with hjrefdef
  have hjb := jrefAux_bounds nf.rs r s.offset nf.d hd0 ((3 * nf.d + 2).toNat - 1 - idxNat) idxNat
  have hsubI : (((3 * nf.d + 2).toNat - 1 - idxNat : Nat) : Int) = 3 * nf.d + 1 - ((j : Int) + aj) := by
    omega
  have hkey := hor_min_eq nf.rs r s.offset nf.d aj j idxNat hd0 hd31 haj0 haj1 (by omega) hidxI
  rw [codeCell, specCell]
  dsimp only
  rw [getD_of_get? hsa', getD_of_get? hjget]
  have hcr : wrap8 (aj + jref) = aj + jref := by
    apply wrap8_eq_of_bounds <;> omega
  rw [hcr]
  by_cases hg1 : j + 1 < s.arr.length
  · have hs1 : (j : Int) < 2 * nf.d := by omega
    have hsa1 : s.arr.get? (j + 1) = some (s.arr.get ⟨j + 1, hg1⟩) := List.get?_eq_get hg1
    obtain ⟨ha10, ha11⟩ := hrange (s.arr.get ⟨j + 1, hg1⟩) (s.arr.get_mem (j + 1) hg1)
    set aj1 := s.arr.get ⟨j + 1, hg1⟩ with haj1def
    have hw1 : wrap8 (s.arr.getD (j + 1) 0 + 1) = aj1 + 1 := by
      rw [getD_of_get? hsa1]
      apply wrap8_eq_of_bounds <;> omega
    rw [if_pos hg1, if_pos hs1, hw1, getD_of_get? hsa1]
    by_cases hg2 : j + 2 < s.arr.length
    · have hs2 : (j : Int) < 2 * nf.d - 1 := by omega
      have hsa2 : s.arr.get? (j + 2) = some (s.arr.get ⟨j + 2, hg2⟩) := List.get?_eq_get hg2
      obtain ⟨ha20, ha21⟩ := hrange (s.arr.get ⟨j + 2, hg2⟩) (s.arr.get_mem (j + 2) hg2)
      set aj2 := s.arr.get ⟨j + 2, hg2⟩ with haj2def
      have hw2 : wrap8 (s.arr.getD (j + 2) 0 + 1) = aj2 + 1 := by
        rw [getD_of_get? hsa2]
        apply wrap8_eq_of_bounds <;> omega
      rw [if_pos hg2, if_pos hs2, hw2, getD_of_get? hsa2]
      simp only [min_def] at hkey ⊢
      split_ifs at hkey ⊢ <;> omega
    · have hs2 : ¬ ((j : Int) < 2 * nf.d - 1) := by omega
      rw [if_neg hg2, if_neg hs2]
      simp only [min_def] at hkey ⊢
      split_ifs at hkey ⊢ <;> omega
  · have hs1 : ¬ ((j : Int) < 2 * nf.d) := by omega
    have hg2 : ¬ (j + 2 < s.arr.length) := by omega
    have hs2 : ¬ ((j : Int) < 2 * nf.d - 1) := by omega
    rw [if_neg hg1, if_neg hg2, if_neg hs1, if_neg hs2]
    simp only [min_def] at hkey ⊢
    split_ifs at hkey ⊢ <;> omega

theorem foldr_min_min (a b : Int) (l : List Int) :
    List.foldr min (min a b) l = min a (List.foldr min b l) := by
  induction l with
  | nil => rfl
  | cons x l ih =>
    rw [List.foldr_cons, List.foldr_cons, ih]
    rw [min_left_comm]

theorem foldl_min_eq_foldr (l : List Int) : ∀ a : Int, List.foldl min a l = List.foldr min a l := by
  induction l with
  | nil => intro a; rfl
  | cons x l ih =>
    intro a
    rw [List.foldl_cons, List.foldr_cons, ih (min a x), foldr_min_min]
    rw [← foldr_min_min, min_comm a x, foldr_min_min]

theorem transCells_spec (nf : Nfa) (s : NState) (r : Nat)
    (hd0 : 0 ≤ nf.d) (hd31 : nf.d ≤ 31)
    (hlen : s.arr.length = (2 * nf.d + 1).toNat)
    (hrange : ∀ v ∈ s.arr, 0 ≤ v ∧ v ≤ nf.d + 1) :
    ∀ (k j : Nat) (mn : Int), j + k = (2 * nf.d + 1).toNat →
      transCells s.arr (mkJump nf s.offset r) (nf.d + 1) k j mn =
        some ((List.range' j k).map (specCell nf s r),
          ((List.range' j k).map (specCell nf s r)).foldl min mn) := by
  have hLI : ((2 * nf.d + 1).toNat : Int) = 2 * nf.d + 1 := Int.toNat_of_nonneg (by omega)
  have hlenI3 : ((3 * nf.d + 2).toNat : Int) = 3 * nf.d + 2 := Int.toNat_of_nonneg (by omega)
  intro k
  induction k with
  | zero => intro j mn hjk; simp [transCells, List.range']
  | succ k ih =>
    intro j mn hjk
    have hjlt : j < s.arr.length := by omega
    have hjL : j < (2 * nf.d + 1).toNat := by omega
    have hsome : s.arr.get? j = some (s.arr.get ⟨j, hjlt⟩) := List.get?_eq_get hjlt
    set aj := s.arr.get ⟨j, hjlt⟩ with hajdef
    obtain ⟨haj0, haj1⟩ := hrange aj (s.arr.get_mem j hjlt)
    have hidx0 : (0 : Int) ≤ (j : Int) + aj := by omega
    have hidxI : (((j : Int) + aj).toNat : Int) = (j : Int) + aj := Int.toNat_of_nonneg hidx0
    have hidxlt : ((j : Int) + aj).toNat < (3 * nf.d + 2).toNat := by omega
    have hjget := mkJump_get nf s.offset r hd0 hd31 _ hidxlt
    rw [transCells, hsome]
    dsimp only
    rw [if_pos hidx0, hjget]
    dsimp only
    rw [ih (j + 1) _ (by omega)]
    dsimp only
    have hcc := codeCell_eq_specCell nf s r j aj hd0 hd31 hlen hrange hjL hjlt rfl
    rw [hcc]
    have hck : (if specCell nf s r j < nf.d + 1 then specCell nf s r j else nf.d + 1) =
        specCell nf s r j := by
      have := specCell_le nf s r j
      split_ifs <;> omega
    have hmn : (if specCell nf s r j < mn then specCell nf s r j else mn) =
        min mn (specCell nf s r j) := by
      rw [min_def]; split_ifs <;> omega
    rw [hck, hmn, List.range'_succ, List.map_cons, List.foldl_cons]

/-- C4 (amended): for an NFA built from `(Q, d)` with `0 ≤ d ≤ 31` -- the
overflow-free part of the claim's domain, in which every 8-bit quantity of
the transition stays at most `4d+2 ≤ 126` -- and every state satisfying the
representation invariant (`2d+1` cells, each in `[0, d+1]`), `transition`
returns exactly the successor state described by the claim: offset
increased by one, each cell the clamped minimum of the horizontal
contribution (`arr[j]` plus the capped distance to the next matching
position at or after `offset + j + arr[j]`), the diagonal contribution
`arr[j+1] + 1` (when `j < 2d`) and the vertical contribution `arr[j+2] + 1`
(when `j < 2d-1`), with `d+1` written for inactive diagonals, and the
reported minimum the smallest active value, or `d+1` if none.  At `d ≥ 32`
the claim fails, see the counterexample. -/
theorem transition_eq_spec (nf : Nfa) (s : NState) (r : Nat)
    (hd0 : 0 ≤ nf.d) (hd31 : nf.d ≤ 31)
    (hlen : s.arr.length = (2 * nf.d + 1).toNat)
    (hrange : ∀ v ∈ s.arr, 0 ≤ v ∧ v ≤ nf.d + 1) :
    transition nf s r = some (specTransition nf s r) := by
  rw [transition]
  rw [wrap8_eq_of_bounds (nf.d + 1) (by omega) (by omega)]
  rw [transCells_spec nf s r hd0 hd31 hlen hrange _ 0 _ (by omega)]
  rw [specTransition]
  rw [List.range_eq_range']
  rw [foldl_min_eq_foldr]

/-- Witness for `transition_eq_spec` on the NFA for Q = "a", d = 1, at its
start state and input scalar "a". -/
theorem transition_eq_spec_spot :
    transition (newNfa [97] 1) (nfaStart (newNfa [97] 1)) 97 =
      some (specTransition (newNfa [97] 1) (nfaStart (newNfa [97] 1)) 97) :=
  transition_eq_spec (newNfa [97] 1) (nfaStart (newNfa [97] 1)) 97 (by decide) (by decide)
    (by decide) (by decide)

/-- C4 counterexample: at d = 32 (inside the claim's domain), the start
state of the NFA for the empty query satisfies the representation
invariant, yet `transition` does not return the successor the claim
describes: the jump-table value 97 added to the cell value 33 wraps in
`int8` to -126, which is written into the successor (the claim's formula
writes the inactive sentinel 33). -/
theorem transition_ne_spec_at_d32 :
    ((nfaStart (newNfa [] 32)).arr.length = (2 * (32 : Int) + 1).toNat ∧
      ∀ v ∈ (nfaStart (newNfa [] 32)).arr, 0 ≤ v ∧ v ≤ (32 : Int) + 1) ∧
    transition (newNfa [] 32) (nfaStart (newNfa [] 32)) 97 ≠
      some (specTransition (newNfa [] 32) (nfaStart (newNfa [] 32)) 97) := by
  constructor
  · constructor
    · decide
    · decide
  · decide

end Levtrie
